import Mathlib

/-!
Verification development for the Claude-Code-Usage-Monitor session engine
(`ccusage_monitor.py`).  Timestamps are modelled as integers (seconds since
the UTC epoch), exact rationals replace Python floats, and Python's `int()`
truncation is modelled by `pyInt`.  Every definition follows the source
function of the same name.
-/

namespace CCM

/-- Python's `int()` applied to a rational number: truncation toward zero. -/
def pyInt (q : ℚ) : ℤ := if 0 ≤ q then ⌊q⌋ else ⌈q⌉

theorem pyInt_nonneg {q : ℚ} (h : 0 ≤ q) : 0 ≤ pyInt q := by
  simp only [pyInt, if_pos h]
  exact Int.floor_nonneg.mpr h

theorem pyInt_cast_le {q : ℚ} (h : 0 ≤ q) : (pyInt q : ℚ) ≤ q := by
  simp only [pyInt, if_pos h]
  exact Int.floor_le q

theorem pyInt_le_int {q : ℚ} {n : ℤ} (h0 : 0 ≤ q) (h : q ≤ (n : ℚ)) : pyInt q ≤ n := by
  simp only [pyInt, if_pos h0]
  exact_mod_cast Int.floor_le_floor h |>.trans_eq (Int.floor_intCast n)

/-- `dt.replace(minute=0, second=0, microsecond=0)` on a UTC datetime:
floor the timestamp to its clock hour. -/
def floorHour (t : ℤ) : ℤ := t - t % 3600

/-- `round_to_next_full_hour` (ccusage_monitor.py:505): round a timestamp up to
the next full clock hour; a timestamp already on the hour is returned as is. -/
def roundUpHour (t : ℤ) : ℤ := if t % 3600 = 0 then t else floorHour t + 3600

theorem floorHour_mul (t : ℤ) : floorHour t % 3600 = 0 := by
  simp only [floorHour]
  omega

theorem floorHour_le (t : ℤ) : floorHour t ≤ t := by
  simp only [floorHour]
  omega

theorem lt_floorHour_add (t : ℤ) : t < floorHour t + 3600 := by
  simp only [floorHour]
  omega

theorem le_roundUpHour (t : ℤ) : t ≤ roundUpHour t := by
  simp only [roundUpHour, floorHour]
  split <;> omega

/-- Number of loop iterations of the `while current_hour <= stop` hour loops:
hours starting at `floorHour start` and stepping by 3600 while `≤ stop`. -/
def hourCount (start stop : ℤ) : ℕ :=
  if stop < floorHour start then 0 else ((stop - floorHour start).toNat / 3600) + 1

/-- The list of clock-hour starts visited by the hour loops of
`calculate_hourly_token_distribution` and `calculate_dynamic_session_tokens`. -/
def hoursFrom (start stop : ℤ) : List ℤ :=
  (List.range (hourCount start stop)).map (fun (i : ℕ) => floorHour start + 3600 * (i : ℤ))

theorem mem_hoursFrom_iff {start stop h : ℤ} :
    h ∈ hoursFrom start stop ↔
      ∃ i : ℕ, i < hourCount start stop ∧ h = floorHour start + 3600 * (i : ℤ) := by
  simp only [hoursFrom, List.mem_map, List.mem_range]
  constructor
  · rintro ⟨i, hi, rfl⟩
    exact ⟨i, hi, rfl⟩
  · rintro ⟨i, hi, rfl⟩
    exact ⟨i, hi, rfl⟩

theorem hoursFrom_nodup (start stop : ℤ) : (hoursFrom start stop).Nodup := by
  unfold hoursFrom
  refine List.Nodup.map ?_ (List.nodup_range _)
  intro a b hab
  simp only at hab
  omega

theorem mem_hoursFrom {start stop h : ℤ} (hm : h ∈ hoursFrom start stop) :
    floorHour start ≤ h ∧ h ≤ stop ∧ h % 3600 = 0 := by
  rw [mem_hoursFrom_iff] at hm
  obtain ⟨i, hi, rfl⟩ := hm
  simp only [hourCount, floorHour] at *
  split at hi
  · omega
  · have h2 : 3600 * ((stop - (start - start % 3600)).toNat / 3600) ≤
        (stop - (start - start % 3600)).toNat := Nat.mul_div_le _ 3600 |>.trans_eq rfl
    omega

theorem floorHour_mem_hoursFrom {start stop : ℤ} (h : start ≤ stop) :
    floorHour stop ∈ hoursFrom start stop := by
  rw [mem_hoursFrom_iff]
  refine ⟨(stop - floorHour start).toNat / 3600, ?_, ?_⟩
  all_goals
    simp only [hourCount, floorHour]
    have h2 : 3600 * ((stop - (start - start % 3600)).toNat / 3600) +
        (stop - (start - start % 3600)).toNat % 3600 =
        (stop - (start - start % 3600)).toNat := Nat.div_add_mod _ 3600
    first
    | split <;> omega
    | omega

theorem eq_floorHour_of_aligned {h t : ℤ} (ha : h % 3600 = 0) (h1 : h ≤ t)
    (h2 : t < h + 3600) : floorHour t = h := by
  simp only [floorHour]
  omega

/-- One entry of the `session_hours` list built by
`calculate_hourly_token_distribution` (ccusage_monitor.py:552-557):
the clock hour, its overlap ratio with the session and its activity factor. -/
structure SH where
  hour : ℤ
  ratio : ℚ
  factor : ℚ
deriving DecidableEq, Repr

/-- The `hourly_factors` table (ccusage_monitor.py:524-531) with the default
0.2 used by `.get(hour_index, 0.2)` for later hours. -/
def hourly_factors (j : ℕ) : ℚ :=
  if j = 0 then 12 / 10
  else if j = 1 then 15 / 10
  else if j = 2 then 13 / 10
  else if j = 3 then 1
  else if j = 4 then 7 / 10
  else if j = 5 then 3 / 10
  else 2 / 10

theorem hourly_factors_pos (j : ℕ) : 0 < hourly_factors j := by
  unfold hourly_factors
  split <;> try norm_num
  split <;> try norm_num
  split <;> try norm_num
  split <;> try norm_num
  split <;> try norm_num
  split <;> norm_num

/-- The hour loop of `calculate_hourly_token_distribution`
(ccusage_monitor.py:538-561): an hour is recorded, with the next activity
factor, exactly when its overlap with `[s, e]` is positive; `idx` is the
running `hour_index`, incremented only for recorded hours. -/
def buildSH (s e : ℤ) : List ℤ → ℕ → List SH
  | [], _ => []
  | h :: rest, idx =>
    let os := max s h
    let oe := min e (h + 3600)
    if os < oe then
      { hour := h, ratio := ((oe - os : ℤ) : ℚ) / 3600, factor := hourly_factors idx } ::
        buildSH s e rest (idx + 1)
    else buildSH s e rest idx

def session_hours (s e : ℤ) : List SH := buildSH s e (hoursFrom s e) 0

/-- The weighted share `overlap_ratio * factor` of one session hour. -/
def weightOf (x : SH) : ℚ := x.ratio * x.factor

theorem buildSH_hours_sublist (s e : ℤ) :
    ∀ (l : List ℤ) (idx : ℕ), ((buildSH s e l idx).map SH.hour).Sublist l := by
  intro l
  induction l with
  | nil => intro idx; simp [buildSH]
  | cons h rest ih =>
    intro idx
    simp only [buildSH]
    split
    · simpa using (ih (idx + 1)).cons₂ h
    · exact (ih idx).cons h

theorem mem_buildSH {s e : ℤ} {x : SH} :
    ∀ {l : List ℤ} {idx : ℕ}, x ∈ buildSH s e l idx →
      x.hour ∈ l ∧ max s x.hour < min e (x.hour + 3600) ∧
      x.ratio = ((min e (x.hour + 3600) - max s x.hour : ℤ) : ℚ) / 3600 ∧
      ∃ j, x.factor = hourly_factors j := by
  intro l
  induction l with
  | nil => intro idx hx; simp [buildSH] at hx
  | cons h rest ih =>
    intro idx hx
    simp only [buildSH] at hx
    split at hx
    · rcases List.mem_cons.mp hx with rfl | hx'
      · exact ⟨List.mem_cons_self _ _, by assumption, rfl, _, rfl⟩
      · obtain ⟨h1, h2, h3, h4⟩ := ih hx'
        exact ⟨List.mem_cons_of_mem _ h1, h2, h3, h4⟩
    · obtain ⟨h1, h2, h3, h4⟩ := ih hx
      exact ⟨List.mem_cons_of_mem _ h1, h2, h3, h4⟩

theorem mem_session_hours {s e : ℤ} {x : SH} (hx : x ∈ session_hours s e) :
    0 < x.ratio ∧ 0 < x.factor := by
  obtain ⟨-, h2, h3, j, h4⟩ := mem_buildSH hx
  constructor
  · rw [h3]
    have h5 : (0 : ℤ) < min e (x.hour + 3600) - max s x.hour := by omega
    have h6 : (0 : ℚ) < ((min e (x.hour + 3600) - max s x.hour : ℤ) : ℚ) := by
      exact_mod_cast h5
    positivity
  · rw [h4]; exact hourly_factors_pos j

/-- Python's `max(session_hours, key=lambda h: ...)`: the first element
attaining the maximal weighted share (`max` only replaces on strictly
greater key). -/
def maxWeight (x : SH) (xs : List SH) : SH :=
  xs.foldl (fun b y => if weightOf b < weightOf y then y else b) x

theorem maxWeight_mem (x : SH) (xs : List SH) : maxWeight x xs ∈ x :: xs := by
  induction xs generalizing x with
  | nil => simp [maxWeight]
  | cons y ys ih =>
    have h := ih (if weightOf x < weightOf y then y else x)
    simp only [maxWeight, List.foldl_cons] at *
    rcases List.mem_cons.mp h with h' | h'
    · rw [h']
      split <;> simp
    · exact List.mem_cons_of_mem _ (List.mem_cons_of_mem _ h')

/-- `hourly_tokens[key] += difference` on the association list: the single
entry with the given key (keys are distinct) gets the difference added. -/
def bumpKey (k d : ℤ) (l : List (ℤ × ℤ)) : List (ℤ × ℤ) :=
  l.map (fun p => if p.1 = k then (p.1, p.2 + d) else p)

/-- `sum(hourly_tokens.values())`. -/
def sumValues (l : List (ℤ × ℤ)) : ℤ := (l.map (fun p => p.2)).sum

/-- `hourly_tokens.get(key, 0)`. -/
def lookupD : List (ℤ × ℤ) → ℤ → ℤ
  | [], _ => 0
  | p :: rest, k => if p.1 = k then p.2 else lookupD rest k

/-- The proportional distribution loop of `calculate_hourly_token_distribution`
(ccusage_monitor.py:563-573): each session hour gets
`int(total_tokens * weight)` where `weight` is its share of the total
weighted time (0 when the total weighted time is not positive). -/
def baseDist (session_start session_end total_tokens : ℤ) : List (ℤ × ℤ) :=
  let sh := session_hours session_start session_end
  let total_weighted_time : ℚ := (sh.map weightOf).sum
  sh.map (fun x =>
    (x.hour,
      if 0 < total_weighted_time then
        pyInt ((total_tokens : ℚ) * (weightOf x / total_weighted_time))
      else 0))

/-- `calculate_hourly_token_distribution` (ccusage_monitor.py:516-584):
deterministically apportion `total_tokens` over the window's clock hours by
weighted overlap, then add the truncation residual to the first hour of
largest weighted share. The result is the `hourly_tokens` dict as an
association list in hour order. -/
def calculate_hourly_token_distribution (session_start session_end total_tokens : ℤ) :
    List (ℤ × ℤ) :=
  let base := baseDist session_start session_end total_tokens
  let difference := total_tokens - sumValues base
  if difference = 0 then base
  else
    match session_hours session_start session_end with
    | [] => base
    | x :: xs => bumpKey (maxWeight x xs).hour difference base

/-- `calculate_dynamic_session_tokens` (ccusage_monitor.py:587-614): walk the
clock hours from the session start's hour up to `target_time`; a full
overlapped hour contributes its whole allocation, a partial one the truncated
product of its allocation with the overlap ratio. -/
def calculate_dynamic_session_tokens (target_time session_start : ℤ)
    (hourly_tokens : List (ℤ × ℤ)) : ℤ :=
  ((hoursFrom session_start target_time).map (fun h =>
    if max session_start h < min target_time (h + 3600) then
      if 1 ≤ ((min target_time (h + 3600) - max session_start h : ℤ) : ℚ) / 3600 then
        lookupD hourly_tokens h
      else
        pyInt ((lookupD hourly_tokens h : ℚ) *
          (((min target_time (h + 3600) - max session_start h : ℤ) : ℚ) / 3600))
    else 0)).sum

/-- The claim's formula for the as-of partial total, written from the spec's
words: the full hourly allocations of all of the window's clock hours that end
at or before `target_time`, plus the linearly prorated (truncated) fraction of
the allocation of the clock hour containing `target_time`. -/
def specDynamicTokens (target_time session_start : ℤ)
    (hourly_tokens : List (ℤ × ℤ)) : ℤ :=
  ((hoursFrom session_start target_time).map (fun h =>
    if h + 3600 ≤ target_time then lookupD hourly_tokens h else 0)).sum +
  pyInt ((lookupD hourly_tokens (floorHour target_time) : ℚ) *
    (((target_time - floorHour target_time : ℤ) : ℚ) / 3600))

theorem sum_map_add {α M : Type*} [AddCommMonoid M] (l : List α) (f g : α → M) :
    (l.map (fun x => f x + g x)).sum = (l.map f).sum + (l.map g).sum := by
  induction l with
  | nil => simp
  | cons a l ih =>
    simp only [List.map_cons, List.sum_cons, ih]
    exact add_add_add_comm _ _ _ _

theorem sum_indicator {l : List ℤ} (hl : l.Nodup) (a : ℤ) (c : ℤ) :
    (l.map (fun k => if k = a then c else 0)).sum = if a ∈ l then c else 0 := by
  induction l with
  | nil => simp
  | cons k rest ih =>
    rcases List.nodup_cons.mp hl with ⟨hk, hrest⟩
    simp only [List.map_cons, List.sum_cons, ih hrest, List.mem_cons]
    by_cases hka : k = a
    · subst hka
      rw [if_pos rfl, if_neg hk, if_pos (Or.inl rfl), add_zero]
    · by_cases ha : a ∈ rest
      · rw [if_neg hka, if_pos ha, if_pos (Or.inr ha), zero_add]
      · have hno : ¬(a = k ∨ a ∈ rest) := by
          rintro (rfl | h)
          · exact hka rfl
          · exact ha h
        rw [if_neg hka, if_neg ha, if_neg hno, add_zero]

theorem lookupD_eq_zero {l : List (ℤ × ℤ)} {k : ℤ}
    (h : k ∉ l.map Prod.fst) : lookupD l k = 0 := by
  induction l with
  | nil => rfl
  | cons p rest ih =>
    rw [List.map_cons, List.mem_cons, not_or] at h
    simp only [lookupD]
    rw [if_neg (fun he => h.1 he.symm)]
    exact ih h.2

theorem lookupD_nonneg {l : List (ℤ × ℤ)} (h : ∀ p ∈ l, 0 ≤ p.2) (k : ℤ) :
    0 ≤ lookupD l k := by
  induction l with
  | nil => simp [lookupD]
  | cons p rest ih =>
    simp only [lookupD]
    split
    · exact h p (List.mem_cons_self _ _)
    · exact ih (fun q hq => h q (List.mem_cons_of_mem _ hq))

theorem bumpKey_id {k d : ℤ} {l : List (ℤ × ℤ)} (h : ∀ p ∈ l, p.1 ≠ k) :
    bumpKey k d l = l := by
  induction l with
  | nil => rfl
  | cons p rest ih =>
    simp only [bumpKey, List.map_cons, if_neg (h p (List.mem_cons_self _ _))]
    rw [show rest.map (fun q => if q.1 = k then (q.1, q.2 + d) else q) =
      bumpKey k d rest from rfl, ih (fun q hq => h q (List.mem_cons_of_mem _ hq))]

theorem sumValues_bumpKey {k d : ℤ} : ∀ {l : List (ℤ × ℤ)},
    (l.map Prod.fst).Nodup → k ∈ l.map Prod.fst →
    sumValues (bumpKey k d l) = sumValues l + d := by
  intro l
  induction l with
  | nil =>
    intro _ hk
    simp at hk
  | cons p rest ih =>
    intro hn hk
    rw [List.map_cons, List.nodup_cons] at hn
    rw [List.map_cons, List.mem_cons] at hk
    by_cases hpk : p.1 = k
    · have hrest : bumpKey k d rest = rest := by
        apply bumpKey_id
        intro q hq he
        have hq1 : q.1 ∈ rest.map Prod.fst := List.mem_map_of_mem Prod.fst hq
        rw [he, ← hpk] at hq1
        exact hn.1 hq1
      simp only [bumpKey, List.map_cons, if_pos hpk]
      rw [show rest.map (fun q => if q.1 = k then (q.1, q.2 + d) else q) =
        bumpKey k d rest from rfl, hrest]
      simp only [sumValues, List.map_cons, List.sum_cons]
      ring
    · have hkr : k ∈ rest.map Prod.fst := hk.resolve_left (fun h => hpk h.symm)
      simp only [bumpKey, List.map_cons, if_neg hpk]
      rw [show rest.map (fun q => if q.1 = k then (q.1, q.2 + d) else q) =
        bumpKey k d rest from rfl]
      simp only [sumValues, List.map_cons, List.sum_cons]
      have h2 := ih hn.2 hkr
      simp only [sumValues] at h2
      omega

theorem sum_lookupD_le {l : List (ℤ × ℤ)} (hn : (l.map Prod.fst).Nodup)
    (hv : ∀ p ∈ l, 0 ≤ p.2) {ks : List ℤ} (hks : ks.Nodup) :
    (ks.map (lookupD l)).sum ≤ sumValues l := by
  induction l with
  | nil =>
    simp only [sumValues, List.map_nil, List.sum_nil]
    rw [show ks.map (lookupD []) = ks.map (fun _ => (0 : ℤ)) from
      List.map_congr_left (fun k _ => rfl)]
    simp
  | cons p rest ih =>
    simp only [List.map_cons, List.nodup_cons] at hn
    have hpt : ∀ k : ℤ, lookupD (p :: rest) k =
        lookupD rest k + (if k = p.1 then p.2 else 0) := by
      intro k
      simp only [lookupD]
      by_cases hk : p.1 = k
      · subst hk
        rw [if_pos rfl, if_pos rfl, lookupD_eq_zero hn.1, zero_add]
      · rw [if_neg hk, if_neg (fun h => hk h.symm), add_zero]
    rw [List.map_congr_left (fun k _ => hpt k), sum_map_add,
      sum_indicator hks p.1 p.2]
    have h1 := ih hn.2 (fun q hq => hv q (List.mem_cons_of_mem _ hq))
    have h2 : (if p.1 ∈ ks then p.2 else 0) ≤ p.2 := by
      split
      · exact le_refl _
      · exact hv p (List.mem_cons_self _ _)
    simp only [sumValues, List.map_cons, List.sum_cons] at h1 ⊢
    omega

theorem int_cast_sum (l : List ℤ) :
    ((l.sum : ℤ) : ℚ) = (l.map (fun (n : ℤ) => (n : ℚ))).sum := by
  induction l with
  | nil => simp
  | cons a l ih => simp [ih]

theorem sum_map_mul_const {α : Type*} (l : List α) (f : α → ℚ) (c : ℚ) :
    (l.map (fun x => f x * c)).sum = (l.map f).sum * c := by
  induction l with
  | nil => simp
  | cons a l ih => simp [ih, add_mul]

theorem hoursFrom_cons {s e : ℤ} (h : floorHour s ≤ e) :
    ∃ rest, hoursFrom s e = floorHour s :: rest := by
  refine ⟨((List.range ((e - floorHour s).toNat / 3600)).map Nat.succ).map
    (fun (i : ℕ) => floorHour s + 3600 * (i : ℤ)), ?_⟩
  unfold hoursFrom hourCount
  rw [if_neg (by omega), List.range_succ_eq_map, List.map_cons]
  norm_num

theorem session_hours_ne_nil {s e : ℤ} (h : s < e) : session_hours s e ≠ [] := by
  obtain ⟨rest, hr⟩ := hoursFrom_cons (le_trans (floorHour_le s) (le_of_lt h))
  unfold session_hours
  rw [hr]
  simp only [buildSH]
  have hcond : max s (floorHour s) < min e (floorHour s + 3600) := by
    rw [max_eq_left (floorHour_le s)]
    exact lt_min h (lt_floorHour_add s)
  rw [if_pos hcond]
  exact List.cons_ne_nil _ _

theorem total_weight_pos {s e : ℤ} (h : s < e) :
    0 < ((session_hours s e).map weightOf).sum := by
  refine List.sum_pos _ ?_ ?_
  · intro q hq
    simp only [List.mem_map] at hq
    obtain ⟨x, hx, rfl⟩ := hq
    obtain ⟨h1, h2⟩ := mem_session_hours hx
    exact mul_pos h1 h2
  · simp only [ne_eq, List.map_eq_nil_iff]
    exact session_hours_ne_nil h

theorem session_hours_hours_nodup (s e : ℤ) :
    ((session_hours s e).map SH.hour).Nodup :=
  ((buildSH_hours_sublist s e (hoursFrom s e) 0)).nodup (hoursFrom_nodup s e)

theorem baseDist_keys (s e T : ℤ) :
    (baseDist s e T).map Prod.fst = (session_hours s e).map SH.hour := by
  simp only [baseDist, List.map_map]
  rfl

theorem baseDist_keys_nodup (s e T : ℤ) :
    ((baseDist s e T).map Prod.fst).Nodup := by
  rw [baseDist_keys]
  exact session_hours_hours_nodup s e

/-- Sum preservation of the distribution for a genuine window
(`session_start < session_end`): the residual correction makes the values sum
to exactly `total_tokens`. -/
theorem sumValues_chd {s e : ℤ} (T : ℤ) (h : s < e) :
    sumValues (calculate_hourly_token_distribution s e T) = T := by
  simp only [calculate_hourly_token_distribution]
  split
  · omega
  · rcases hsh : session_hours s e with _ | ⟨x, xs⟩
    · exact absurd hsh (session_hours_ne_nil h)
    · simp only [hsh]
      have hk : (maxWeight x xs).hour ∈ (baseDist s e T).map Prod.fst := by
        rw [baseDist_keys]
        refine List.mem_map_of_mem SH.hour ?_
        rw [hsh]
        exact maxWeight_mem x xs
      rw [sumValues_bumpKey (baseDist_keys_nodup s e T) hk]
      omega

theorem baseDist_values_nonneg {s e T : ℤ} (h : s < e) (hT : 0 ≤ T) :
    ∀ p ∈ baseDist s e T, 0 ≤ p.2 := by
  have hW := total_weight_pos (e := e) h
  intro p hp
  simp only [baseDist, List.mem_map] at hp
  obtain ⟨x, hx, rfl⟩ := hp
  rw [if_pos hW]
  apply pyInt_nonneg
  apply mul_nonneg (by exact_mod_cast hT)
  apply div_nonneg _ (le_of_lt hW)
  obtain ⟨h1, h2⟩ := mem_session_hours hx
  exact le_of_lt (mul_pos h1 h2)

theorem sumValues_baseDist_le {s e T : ℤ} (h : s < e) (hT : 0 ≤ T) :
    sumValues (baseDist s e T) ≤ T := by
  have hW := total_weight_pos (e := e) h
  have hcast : ((sumValues (baseDist s e T) : ℤ) : ℚ) ≤ (T : ℚ) := by
    rw [sumValues, int_cast_sum, List.map_map]
    simp only [baseDist, List.map_map]
    calc ((session_hours s e).map _).sum
        ≤ ((session_hours s e).map
            (fun x => (T : ℚ) * (weightOf x / ((session_hours s e).map weightOf).sum))).sum := by
          apply List.sum_le_sum
          intro x hx
          simp only [Function.comp_apply]
          rw [if_pos hW]
          apply pyInt_cast_le
          apply mul_nonneg (by exact_mod_cast hT)
          apply div_nonneg _ (le_of_lt hW)
          obtain ⟨h1, h2⟩ := mem_session_hours hx
          exact le_of_lt (mul_pos h1 h2)
      _ = ((session_hours s e).map
            (fun x => weightOf x * ((T : ℚ) / ((session_hours s e).map weightOf).sum))).sum := by
          apply congrArg
          apply List.map_congr_left
          intro x _
          ring
      _ = ((session_hours s e).map weightOf).sum *
            ((T : ℚ) / ((session_hours s e).map weightOf).sum) := by
          rw [sum_map_mul_const]
      _ = (T : ℚ) := by
          rw [mul_comm, div_mul_cancel₀ _ (ne_of_gt hW)]
  exact_mod_cast hcast

/-- Every value of the distribution is non-negative for a genuine window and
non-negative total. -/
theorem chd_values_nonneg {s e T : ℤ} (h : s < e) (hT : 0 ≤ T) :
    ∀ p ∈ calculate_hourly_token_distribution s e T, 0 ≤ p.2 := by
  have hdist := sumValues_baseDist_le h hT
  intro p hp
  simp only [calculate_hourly_token_distribution] at hp
  split at hp
  · exact baseDist_values_nonneg h hT p hp
  · rcases hsh : session_hours s e with _ | ⟨x, xs⟩
    · simp only [hsh] at hp
      exact baseDist_values_nonneg h hT p hp
    · simp only [hsh] at hp
      simp only [bumpKey, List.mem_map] at hp
      obtain ⟨q, hq, rfl⟩ := hp
      have hq2 := baseDist_values_nonneg h hT q hq
      split
      · simp only
        omega
      · exact hq2

theorem bumpKey_keys (k d : ℤ) (l : List (ℤ × ℤ)) :
    (bumpKey k d l).map Prod.fst = l.map Prod.fst := by
  unfold bumpKey
  rw [List.map_map]
  apply List.map_congr_left
  intro p _
  simp only [Function.comp_apply]
  split <;> rfl

theorem chd_keys_nodup (s e T : ℤ) :
    ((calculate_hourly_token_distribution s e T).map Prod.fst).Nodup := by
  simp only [calculate_hourly_token_distribution]
  split
  · exact baseDist_keys_nodup s e T
  · split
    · exact baseDist_keys_nodup s e T
    · rw [bumpKey_keys]
      exact baseDist_keys_nodup s e T

/-- Bounds for `calculate_dynamic_session_tokens` over any distribution with
distinct keys and non-negative values. -/
theorem cds_bounds {dist : List (ℤ × ℤ)} (hn : (dist.map Prod.fst).Nodup)
    (hv : ∀ p ∈ dist, 0 ≤ p.2) (target s : ℤ) :
    0 ≤ calculate_dynamic_session_tokens target s dist ∧
    calculate_dynamic_session_tokens target s dist ≤ sumValues dist := by
  constructor
  · apply List.sum_nonneg
    intro q hq
    simp only [List.mem_map] at hq
    obtain ⟨h', h'mem, rfl⟩ := hq
    split
    · split
      · exact lookupD_nonneg hv h'
      · apply pyInt_nonneg
        apply mul_nonneg
        · exact_mod_cast lookupD_nonneg hv h'
        · apply div_nonneg _ (by norm_num)
          have : (0 : ℤ) < min target (h' + 3600) - max s h' := by omega
          exact_mod_cast le_of_lt this
    · exact le_refl 0
  · calc ((hoursFrom s target).map _).sum
        ≤ ((hoursFrom s target).map (lookupD dist)).sum := by
          apply List.sum_le_sum
          intro h' h'mem
          split
          · split
            · exact le_refl _
            · have htok := lookupD_nonneg hv h'
              have hr0 : (0 : ℚ) ≤ ((min target (h' + 3600) - max s h' : ℤ) : ℚ) / 3600 := by
                apply div_nonneg _ (by norm_num)
                have : (0 : ℤ) < min target (h' + 3600) - max s h' := by omega
                exact_mod_cast le_of_lt this
              apply pyInt_le_int (mul_nonneg (by exact_mod_cast htok) hr0)
              have hr1 : ((min target (h' + 3600) - max s h' : ℤ) : ℚ) / 3600 ≤ 1 :=
                le_of_lt (lt_of_not_le (by assumption))
              calc (lookupD dist h' : ℚ) * (((min target (h' + 3600) - max s h' : ℤ) : ℚ) / 3600)
                  ≤ (lookupD dist h' : ℚ) * 1 := by
                    apply mul_le_mul_of_nonneg_left hr1
                    exact_mod_cast htok
                _ = (lookupD dist h' : ℚ) := mul_one _
          · exact lookupD_nonneg hv h'
      _ ≤ sumValues dist := sum_lookupD_le hn hv (hoursFrom_nodup s target)

theorem floorHour_eq_self {s : ℤ} (ha : s % 3600 = 0) : floorHour s = s := by
  simp only [floorHour]
  omega

/-- When the session start lies exactly on an hour boundary, the dynamic
session-token walk agrees with the spec's formula: full allocations for hours
ending at or before the target, plus the prorated share of the hour containing
the target. -/
theorem cds_eq_spec (dist : List (ℤ × ℤ)) {s target : ℤ}
    (ha : s % 3600 = 0) (hle : s ≤ target) :
    calculate_dynamic_session_tokens target s dist = specDynamicTokens target s dist := by
  have hfs : floorHour s = s := floorHour_eq_self ha
  have hpoint : ∀ h ∈ hoursFrom s target,
      (if max s h < min target (h + 3600) then
        if 1 ≤ ((min target (h + 3600) - max s h : ℤ) : ℚ) / 3600 then
          lookupD dist h
        else
          pyInt ((lookupD dist h : ℚ) *
            (((min target (h + 3600) - max s h : ℤ) : ℚ) / 3600))
      else 0) =
      (if h + 3600 ≤ target then lookupD dist h else 0) +
      (if h = floorHour target then
        pyInt ((lookupD dist (floorHour target) : ℚ) *
          (((target - floorHour target : ℤ) : ℚ) / 3600))
      else 0) := by
    intro h hm
    obtain ⟨hb1, hb2, hb3⟩ := mem_hoursFrom hm
    rw [hfs] at hb1
    have hmax : max s h = h := max_eq_right hb1
    by_cases hcase : h + 3600 ≤ target
    · have hmin : min target (h + 3600) = h + 3600 := min_eq_right hcase
      have hne : h ≠ floorHour target := by
        simp only [floorHour]
        omega
      rw [hmax, hmin, if_pos (by omega), if_neg hne, add_zero]
      have hr : ((h + 3600 - h : ℤ) : ℚ) / 3600 = 1 := by
        norm_num
      rw [hr, if_pos le_rfl, if_pos hcase]
    · push_neg at hcase
      have hmin : min target (h + 3600) = target := min_eq_left (le_of_lt hcase)
      have hfloor : floorHour target = h := eq_floorHour_of_aligned hb3 hb2 hcase
      have hful : ¬(h + 3600 ≤ target) := by omega
      rw [hmax, hmin, if_neg hful, if_pos hfloor.symm, zero_add, hfloor]
      rcases lt_or_eq_of_le hb2 with hth | hth
      · rw [if_pos hth]
        have hrlt : ((target - h : ℤ) : ℚ) / 3600 < 1 := by
          rw [div_lt_one (by norm_num)]
          exact_mod_cast (by omega : (target - h : ℤ) < 3600)
        rw [if_neg (not_le.mpr hrlt)]
      · rw [if_neg (show ¬(h < target) by omega), ← hth]
        have hz : ((h - h : ℤ) : ℚ) / 3600 = 0 := by norm_num
        rw [hz, mul_zero]
        simp [pyInt]
  unfold calculate_dynamic_session_tokens specDynamicTokens
  rw [List.map_congr_left hpoint, sum_map_add,
    sum_indicator (hoursFrom_nodup s target) (floorHour target),
    if_pos (floorHour_mem_hoursFrom hle)]

/-- One usage record from `ccusage blocks --json`: `startTime` and
`actualEndTime` are optional timestamps, `totalTokens` defaults to 0. -/
structure Block where
  startTime : Option ℤ
  actualEndTime : Option ℤ
  totalTokens : ℤ
  isActive : Bool
  isGap : Bool
deriving DecidableEq, Repr

/-- The parsed `session_state.json` dictionary; `session_start_time` is
present only when the file had that key with a parsable timestamp. -/
structure StateRec where
  session_start_time : Option ℤ
deriving DecidableEq, Repr

/-- One iteration of the `get_last_session_info` loop
(ccusage_monitor.py:371-385): skip gaps and records without a start time,
otherwise keep the strictly later start. -/
def glsStep (acc : Option ℤ) (b : Block) : Option ℤ :=
  if b.isGap then acc
  else
    match b.startTime with
    | none => acc
    | some t =>
      match acc with
      | none => some t
      | some cur => if cur < t then some t else acc

/-- `get_last_session_info` (ccusage_monitor.py:363-387): the start of the
latest-starting non-gap record with a start time; the first such record wins
ties (replacement only on strictly greater start). -/
def get_last_session_info (blocks : List Block) : Option ℤ :=
  blocks.foldl glsStep none

/-- `any(block.get('isActive', False) for block in blocks if not
block.get('isGap', False))`. -/
def hasActiveSession (blocks : List Block) : Bool :=
  blocks.any (fun b => !b.isGap && b.isActive)

/-- The result of one resolver call: the returned reset time (`none` means
"ready for new session"), the session-state content after the call, and
whether `save_session_state` was invoked. -/
structure ResolveOut where
  reset : Option ℤ
  state : Option StateRec
  wrote : Bool
deriving DecidableEq, Repr

/-- The `else` branch of `get_session_based_reset_time`
(ccusage_monitor.py:752-781), taken when no usable saved state exists: the
latest session is saved as the new window start, and its rounded reset time is
returned unless it already passed with no active session. -/
def freshStateResolve (current_time : ℤ) (blocks : List Block)
    (saved : Option StateRec) : ResolveOut :=
  match get_last_session_info blocks with
  | none => ⟨none, saved, false⟩
  | some t =>
    if hasActiveSession blocks then
      ⟨some (roundUpHour (t + 18000)), some ⟨some t⟩, true⟩
    else if roundUpHour (t + 18000) ≤ current_time then
      ⟨none, some ⟨some t⟩, true⟩
    else
      ⟨some (roundUpHour (t + 18000)), some ⟨some t⟩, true⟩

/-- `get_session_based_reset_time` (ccusage_monitor.py:712-781) as a pure
function of the current time, the usage records and the loaded session state;
the returned `ResolveOut` records the reset time, the state after the call and
whether the state file was written. -/
def get_session_based_reset_time (current_time : ℤ) (blocks : List Block)
    (saved : Option StateRec) : ResolveOut :=
  match saved with
  | some st =>
    match st.session_start_time with
    | some s =>
      if current_time < roundUpHour (s + 18000) then
        ⟨some (roundUpHour (s + 18000)), saved, false⟩
      else
        match get_last_session_info blocks with
        | some t =>
          if roundUpHour (s + 18000) < t then
            ⟨some (roundUpHour (t + 18000)), some ⟨some t⟩, true⟩
          else ⟨none, saved, false⟩
        | none => ⟨none, saved, false⟩
    | none => freshStateResolve current_time blocks saved
  | none => freshStateResolve current_time blocks saved

/-- The session-window computation of `get_last_message_time`
(ccusage_monitor.py:396-421): note that every window end here is the start
plus five hours, without rounding to the next full hour. -/
def lastMessageWindow (current_time : ℤ) (blocks : List Block)
    (saved : Option StateRec) : Option (ℤ × ℤ) :=
  match saved with
  | some st =>
    match st.session_start_time with
    | some s =>
      if current_time < s + 18000 then some (s, s + 18000)
      else
        match get_last_session_info blocks with
        | some t => if s + 18000 < t then some (t, t + 18000) else none
        | none => none
    | none =>
      match get_last_session_info blocks with
      | some t => some (t, t + 18000)
      | none => none
  | none =>
    match get_last_session_info blocks with
    | some t => some (t, t + 18000)
    | none => none

/-- `get_last_message_time` (ccusage_monitor.py:390-453): the latest
`actualEndTime` (falling back to the start time) among non-gap records whose
start lies in the current window. -/
def get_last_message_time (current_time : ℤ) (blocks : List Block)
    (saved : Option StateRec) : Option ℤ :=
  match lastMessageWindow current_time blocks saved with
  | none => none
  | some (ws, we) =>
    blocks.foldl (fun acc b =>
      if b.isGap then acc
      else
        match b.startTime with
        | none => acc
        | some t =>
          if ws ≤ t ∧ t ≤ we then
            match b.actualEndTime with
            | some ae =>
              (match acc with
               | none => some ae
               | some cur => if cur < ae then some ae else acc)
            | none =>
              (match acc with
               | none => some t
               | some cur => if cur < t then some t else acc)
          else acc) none

/-- The persisted window start recorded in a loaded state, if any. -/
def stateStart : Option StateRec → Option ℤ
  | none => none
  | some r => r.session_start_time

theorem glsStep_cases (acc : Option ℤ) (b : Block) :
    glsStep acc b = acc ∨
    (b.isGap = false ∧ ∃ t, b.startTime = some t ∧ glsStep acc b = some t) := by
  unfold glsStep
  by_cases hg : b.isGap
  · rw [if_pos hg]
    exact Or.inl rfl
  · rw [if_neg hg]
    rcases hst : b.startTime with _ | t
    · exact Or.inl rfl
    · rcases acc with _ | cur
      · exact Or.inr ⟨by simpa using hg, t, rfl, rfl⟩
      · dsimp only
        by_cases hc : cur < t
        · rw [if_pos hc]
          exact Or.inr ⟨by simpa using hg, t, rfl, rfl⟩
        · rw [if_neg hc]
          exact Or.inl rfl

theorem gls_fold {t : ℤ} : ∀ (l : List Block) (acc : Option ℤ),
    List.foldl glsStep acc l = some t →
    acc = some t ∨ ∃ b ∈ l, b.isGap = false ∧ b.startTime = some t := by
  intro l
  induction l with
  | nil =>
    intro acc h
    exact Or.inl h
  | cons b bs ih =>
    intro acc h
    rw [List.foldl_cons] at h
    rcases ih (glsStep acc b) h with h' | ⟨b', hb', h1, h2⟩
    · rcases glsStep_cases acc b with he | ⟨hg, u, hu, he⟩
      · rw [he] at h'
        exact Or.inl h'
      · rw [he] at h'
        obtain rfl := Option.some.inj h'
        exact Or.inr ⟨b, List.mem_cons_self _ _, hg, hu⟩
    · exact Or.inr ⟨b', List.mem_cons_of_mem _ hb', h1, h2⟩

/-- A produced `get_last_session_info` value is the start time of some
non-gap record of the list. -/
theorem gls_mem {blocks : List Block} {t : ℤ}
    (h : get_last_session_info blocks = some t) :
    ∃ b ∈ blocks, b.isGap = false ∧ b.startTime = some t := by
  rcases gls_fold blocks none h with h' | h'
  · exact absurd h' (by simp)
  · exact h'

theorem lt_roundUpHour_add (s : ℤ) : s < roundUpHour (s + 18000) :=
  lt_of_lt_of_le (by omega) (le_roundUpHour (s + 18000))

/-- Every reset time returned by `freshStateResolve` is the rounded reset of
the window start it just persisted. -/
theorem fresh_reset_inv (now : ℤ) (blocks : List Block) (saved : Option StateRec)
    {r : ℤ} (h : (freshStateResolve now blocks saved).reset = some r) :
    ∃ s, (freshStateResolve now blocks saved).state = some ⟨some s⟩ ∧
      r = roundUpHour (s + 18000) ∧ s < r := by
  unfold freshStateResolve at h ⊢
  rcases hgls : get_last_session_info blocks with _ | t <;> simp only [hgls] at h ⊢
  · simp at h
  · by_cases ha : hasActiveSession blocks
    · rw [if_pos ha] at h ⊢
      refine ⟨t, rfl, (Option.some.inj h).symm, ?_⟩
      rw [← Option.some.inj h]
      exact lt_roundUpHour_add t
    · rw [if_neg ha] at h ⊢
      by_cases hle : roundUpHour (t + 18000) ≤ now
      · rw [if_pos hle] at h
        simp at h
      · rw [if_neg hle] at h ⊢
        refine ⟨t, rfl, (Option.some.inj h).symm, ?_⟩
        rw [← Option.some.inj h]
        exact lt_roundUpHour_add t

/-- Every reset time returned by the resolver is the rounded reset of the
window start held in the state after the call, and lies strictly after that
start. -/
theorem gsbrt_reset_inv (now : ℤ) (blocks : List Block) (saved : Option StateRec)
    {r : ℤ} (h : (get_session_based_reset_time now blocks saved).reset = some r) :
    ∃ s, (get_session_based_reset_time now blocks saved).state = some ⟨some s⟩ ∧
      r = roundUpHour (s + 18000) ∧ s < r := by
  rcases saved with _ | ⟨f⟩
  · exact fresh_reset_inv now blocks none h
  · rcases f with _ | s
    · exact fresh_reset_inv now blocks (some ⟨none⟩) h
    · unfold get_session_based_reset_time at h ⊢
      dsimp only at h ⊢
      by_cases hlt : now < roundUpHour (s + 18000)
      · rw [if_pos hlt] at h ⊢
        exact ⟨s, rfl, (Option.some.inj h).symm, by
          rw [← Option.some.inj h]
          exact lt_roundUpHour_add s⟩
      · rw [if_neg hlt] at h ⊢
        rcases hgls : get_last_session_info blocks with _ | t <;>
          simp only [hgls] at h ⊢
        · simp at h
        · by_cases hnew : roundUpHour (s + 18000) < t
          · rw [if_pos hnew] at h ⊢
            refine ⟨t, rfl, (Option.some.inj h).symm, ?_⟩
            rw [← Option.some.inj h]
            exact lt_roundUpHour_add t
          · rw [if_neg hnew] at h
            simp at h

/-- One resolver call either leaves the state untouched or overwrites it with
a start strictly after the previous window's rounded end. -/
theorem gsbrt_state_mono (now : ℤ) (blocks : List Block) (st : Option StateRec)
    (s : ℤ) (h : stateStart st = some s) :
    (get_session_based_reset_time now blocks st).state = st ∨
    ∃ t, (get_session_based_reset_time now blocks st).state = some ⟨some t⟩ ∧
      roundUpHour (s + 18000) < t := by
  rcases st with _ | ⟨f⟩
  · simp [stateStart] at h
  · rcases f with _ | s'
    · simp [stateStart] at h
    · obtain rfl : s = s' := by simpa [stateStart] using h.symm
      unfold get_session_based_reset_time
      dsimp only
      by_cases hlt : now < roundUpHour (s + 18000)
      · rw [if_pos hlt]
        exact Or.inl (by trivial)
      · rw [if_neg hlt]
        rcases hgls : get_last_session_info blocks with _ | t <;>
          simp only [hgls]
        · exact Or.inl (by trivial)
        · by_cases hnew : roundUpHour (s + 18000) < t
          · rw [if_pos hnew]
            exact Or.inr ⟨t, rfl, hnew⟩
          · rw [if_neg hnew]
            exact Or.inl (by trivial)

/-- One polling tick of the resolver, as a transition on the persisted state. -/
def resolveStep (st : Option StateRec) (tick : ℤ × List Block) : Option StateRec :=
  (get_session_based_reset_time tick.1 tick.2 st).state

theorem resolveStep_mono (st : Option StateRec) (tick : ℤ × List Block) :
    ∀ s, stateStart st = some s →
      ∃ t, stateStart (resolveStep st tick) = some t ∧ s ≤ t := by
  intro s hs
  rcases gsbrt_state_mono tick.1 tick.2 st s hs with h | ⟨t, h, hlt⟩
  · refine ⟨s, ?_, le_refl s⟩
    rw [resolveStep, h]
    exact hs
  · refine ⟨t, ?_, ?_⟩
    · rw [resolveStep, h]
      rfl
    · have := le_roundUpHour (s + 18000)
      omega

theorem head?_scanl {α β : Type*} (f : β → α → β) (b : β) (l : List α) :
    (List.scanl f b l).head? = some b := by
  cases l <;> simp [List.scanl]

theorem chain'_scanl {α β : Type*} (R : β → β → Prop) (f : β → α → β)
    (hstep : ∀ b a, R b (f b a)) :
    ∀ (l : List α) (b : β), List.Chain' R (List.scanl f b l) := by
  intro l
  induction l with
  | nil =>
    intro b
    simp [List.scanl]
  | cons a l ih =>
    intro b
    rw [List.scanl_cons, List.singleton_append]
    rw [List.chain'_cons']
    constructor
    · intro y hy
      rw [head?_scanl] at hy
      obtain rfl := Option.some.inj hy
      exact hstep b a
    · exact ih (f b a)

/-- Every window derived inside `get_last_message_time` has end equal to its
start plus exactly five hours (no rounding). -/
theorem lmw_inv (now : ℤ) (blocks : List Block) (saved : Option StateRec)
    {p : ℤ × ℤ} (h : lastMessageWindow now blocks saved = some p) :
    p.2 = p.1 + 18000 := by
  unfold lastMessageWindow at h
  rcases saved with _ | ⟨f⟩
  · rcases hgls : get_last_session_info blocks with _ | t <;> simp only [hgls] at h
    · exact absurd h (by simp)
    · obtain rfl := Option.some.inj h
      rfl
  · rcases f with _ | s
    · dsimp only at h
      rcases hgls : get_last_session_info blocks with _ | t <;> simp only [hgls] at h
      · exact absurd h (by simp)
      · obtain rfl := Option.some.inj h
        rfl
    · dsimp only at h
      split at h
      · obtain rfl := Option.some.inj h
        rfl
      · rcases hgls : get_last_session_info blocks with _ | t <;> simp only [hgls] at h
        · exact absurd h (by simp)
        · split at h
          · obtain rfl := Option.some.inj h
            rfl
          · exact absurd h (by simp)

/-- `freshStateResolve` returns the same reset time and write behaviour
whatever unusable saved value it was handed; when it writes, the resulting
states agree as well. -/
theorem gsbrt_fresh_equiv (now : ℤ) (blocks : List Block)
    (saved₁ saved₂ : Option StateRec) :
    (freshStateResolve now blocks saved₁).reset =
      (freshStateResolve now blocks saved₂).reset ∧
    (freshStateResolve now blocks saved₁).wrote =
      (freshStateResolve now blocks saved₂).wrote ∧
    ((freshStateResolve now blocks saved₁).wrote = true →
      (freshStateResolve now blocks saved₁).state =
        (freshStateResolve now blocks saved₂).state) := by
  unfold freshStateResolve
  rcases hgls : get_last_session_info blocks with _ | t <;> simp only [hgls]
  · simp
  · split
    · simp
    · split
      · simp
      · simp

/-- The `session_start_time` value found in the state file: either a string
`datetime.fromisoformat` parses (`valid t`) or one it raises `ValueError`
on (`invalid`). -/
inductive TimeField where
  | valid (t : ℤ)
  | invalid
deriving DecidableEq, Repr

/-- The content of `session_state.json` as seen by `load_session_state`:
the file may be absent, fail to parse as JSON (`malformed`), or parse to a
dictionary whose `session_start_time` key is absent or holds a `TimeField`. -/
inductive FileContent where
  | absent
  | malformed
  | record (field : Option TimeField)
deriving DecidableEq, Repr

/-- `load_session_state` (ccusage_monitor.py:239-254): a missing file,
unparsable JSON (`json.JSONDecodeError`) or unparsable timestamp
(`ValueError`) yields `None`; a dictionary without the `session_start_time`
key is returned as is. -/
def load_session_state : FileContent → Option StateRec
  | .absent => none
  | .malformed => none
  | .record none => some ⟨none⟩
  | .record (some (.valid t)) => some ⟨some t⟩
  | .record (some .invalid) => none

/-- The state-file path (`session_state.json` next to the script). -/
def stateFilePath : String := "state/session_state.json"

/-- A primitive file-system operation, for describing what
`save_session_state` does to stable storage. -/
inductive FsOp where
  | openTrunc (path : String)
  | writeAll (path : String) (t : ℤ)
  | renameF (src dst : String)
deriving DecidableEq, Repr

/-- A file system: content per path. -/
def FileSys : Type := String → FileContent

/-- Effect of one operation: opening a path with mode `'w'` truncates it (an
interrupted write leaves unparsable content), a completed write stores the
serialized record, a rename moves content between paths. -/
def applyOp (fs : FileSys) : FsOp → FileSys
  | .openTrunc p => fun q => if q = p then .malformed else fs q
  | .writeAll p t => fun q => if q = p then .record (some (.valid t)) else fs q
  | .renameF src dst =>
    fun q => if q = dst then fs src else if q = src then .absent else fs q

def runOps (fs : FileSys) (ops : List FsOp) : FileSys := ops.foldl applyOp fs

/-- `save_session_state` (ccusage_monitor.py:257-274) as the sequence of
file operations it performs: `open(state_file, 'w')` on the state file itself
followed by `json.dump`; no temporary file and no rename. -/
def save_session_state_ops (session_start_time : ℤ) : List FsOp :=
  [FsOp.openTrunc stateFilePath, FsOp.writeAll stateFilePath session_start_time]

/-- The claim's atomic-write discipline: nothing ever truncates or writes the
state file directly; its content is only ever installed by renaming a
temporary file over it. -/
def atomicSaveDiscipline (ops : List FsOp) : Prop :=
  (∀ p, FsOp.openTrunc p ∈ ops → p ≠ stateFilePath) ∧
  (∀ p t, FsOp.writeAll p t ∈ ops → p ≠ stateFilePath) ∧
  (∃ src, src ≠ stateFilePath ∧ FsOp.renameF src stateFilePath ∈ ops)

/-- The effective end of a record in `calculate_hourly_burn_rate`
(ccusage_monitor.py:196-206): the current time for an active session,
otherwise `actualEndTime`, defaulting to the current time. -/
def effectiveEnd (current_time : ℤ) (b : Block) : ℤ :=
  if b.isActive then current_time else b.actualEndTime.getD current_time

/-- The loop body of `calculate_hourly_burn_rate` (ccusage_monitor.py:184-227):
the tokens this record contributes to the trailing hour (0 when it is skipped
by one of the `continue`s). -/
def burnShare (current_time : ℤ) (b : Block) : ℚ :=
  match b.startTime with
  | none => 0
  | some st =>
    if b.isGap then 0
    else
      if effectiveEnd current_time b < current_time - 3600 then 0
      else
        if min (effectiveEnd current_time b) current_time ≤
            max st (current_time - 3600) then 0
        else
          if 0 < ((effectiveEnd current_time b - st : ℤ) : ℚ) / 60 then
            (b.totalTokens : ℚ) *
              (((min (effectiveEnd current_time b) current_time -
                  max st (current_time - 3600) : ℤ) : ℚ) / 60 /
                (((effectiveEnd current_time b - st : ℤ) : ℚ) / 60))
          else 0

/-- `calculate_hourly_burn_rate` (ccusage_monitor.py:176-230): sum the
per-record shares and divide by 60; 0 when there are no records or the total
is not positive. -/
def calculate_hourly_burn_rate (blocks : List Block) (current_time : ℤ) : ℚ :=
  if blocks = [] then 0
  else
    if 0 < (blocks.map (burnShare current_time)).sum then
      (blocks.map (burnShare current_time)).sum / 60
    else 0

/-- The claim's per-record share, written from the spec's words: gap records
and records whose effective end precedes `now - 1h` are discarded; a surviving
record of positive duration contributes `totalTokens` times the clamped
overlap of `[start, effectiveEnd]` with `[now - 1h, now]` divided by its
duration. -/
def specShare (current_time : ℤ) (b : Block) : ℚ :=
  if b.isGap then 0
  else
    match b.startTime with
    | none => 0
    | some st =>
      if effectiveEnd current_time b < current_time - 3600 then 0
      else
        if 0 < ((effectiveEnd current_time b - st : ℤ) : ℚ) then
          (b.totalTokens : ℚ) *
            (max 0 ((min (effectiveEnd current_time b) current_time -
                max st (current_time - 3600) : ℤ) : ℚ) /
              ((effectiveEnd current_time b - st : ℤ) : ℚ))
        else 0

/-- The claim's formula for the burn rate: the sum of the proportional shares
divided by 60. -/
def specHourlyRate (current_time : ℤ) (blocks : List Block) : ℚ :=
  (blocks.map (specShare current_time)).sum / 60

theorem burnShare_eq_specShare (current_time : ℤ) (b : Block) :
    burnShare current_time b = specShare current_time b := by
  unfold burnShare specShare
  rcases hst : b.startTime with _ | st <;> simp only [hst]
  · split <;> rfl
  · by_cases hg : b.isGap
    · rw [if_pos hg, if_pos hg]
    · rw [if_neg hg, if_neg hg]
      by_cases hE : effectiveEnd current_time b < current_time - 3600
      · rw [if_pos hE, if_pos hE]
      · rw [if_neg hE, if_neg hE]
        by_cases hov : min (effectiveEnd current_time b) current_time ≤
            max st (current_time - 3600)
        · rw [if_pos hov]
          have hm : max 0 ((min (effectiveEnd current_time b) current_time -
              max st (current_time - 3600) : ℤ) : ℚ) = 0 := by
            apply max_eq_left
            have : (min (effectiveEnd current_time b) current_time -
                max st (current_time - 3600) : ℤ) ≤ 0 := by omega
            exact_mod_cast this
          rw [hm]
          split
          · rw [zero_div, mul_zero]
          · rfl
        · rw [if_neg hov]
          push_neg at hov
          have hm : max 0 ((min (effectiveEnd current_time b) current_time -
              max st (current_time - 3600) : ℤ) : ℚ) =
              ((min (effectiveEnd current_time b) current_time -
                max st (current_time - 3600) : ℤ) : ℚ) := by
            apply max_eq_right
            have : (0 : ℤ) ≤ min (effectiveEnd current_time b) current_time -
                max st (current_time - 3600) := by omega
            exact_mod_cast this
          rw [hm]
          have hiff : (0 < ((effectiveEnd current_time b - st : ℤ) : ℚ) / 60) ↔
              (0 < ((effectiveEnd current_time b - st : ℤ) : ℚ)) := by
            rw [lt_div_iff₀ (by norm_num : (0 : ℚ) < 60), zero_mul]
          by_cases hdur : 0 < ((effectiveEnd current_time b - st : ℤ) : ℚ)
          · rw [if_pos (hiff.mpr hdur), if_pos hdur]
            congr 1
            rw [div_div_div_comm]
            norm_num
          · rw [if_neg (fun hc => hdur (hiff.mp hc)), if_neg hdur]

theorem specShare_nonneg {blocks : List Block} (current_time : ℤ)
    (hT : ∀ b ∈ blocks, 0 ≤ b.totalTokens) :
    ∀ b ∈ blocks, 0 ≤ specShare current_time b := by
  intro b hb
  unfold specShare
  split
  · exact le_refl 0
  · split
    · exact le_refl 0
    · split
      · exact le_refl 0
      · split
        · apply mul_nonneg
          · exact_mod_cast hT b hb
          · apply div_nonneg (le_max_left 0 _)
            next hdur => exact le_of_lt hdur
        · exact le_refl 0

/-- The burn rate computed by the code equals the spec's formula whenever all
token counts are non-negative. -/
theorem chbr_eq_spec {blocks : List Block} (current_time : ℤ)
    (hT : ∀ b ∈ blocks, 0 ≤ b.totalTokens) :
    calculate_hourly_burn_rate blocks current_time =
      specHourlyRate current_time blocks := by
  unfold calculate_hourly_burn_rate specHourlyRate
  have hmap : blocks.map (burnShare current_time) =
      blocks.map (specShare current_time) :=
    List.map_congr_left (fun b _ => burnShare_eq_specShare current_time b)
  rw [hmap]
  split
  · next hnil =>
    subst hnil
    simp
  · split
    · rfl
    · next hpos =>
      have h0 : (blocks.map (specShare current_time)).sum = 0 :=
        le_antisymm (not_lt.mp hpos)
          (List.sum_nonneg (by
            intro q hq
            simp only [List.mem_map] at hq
            obtain ⟨b, hb, rfl⟩ := hq
            exact specShare_nonneg current_time hT b hb))
      rw [h0, zero_div]

/-! Claim theorems. -/

/-- C1 counterexample: for `windowStart = windowEnd` (an empty window) and
`totalTokens = 5` the distribution is empty and its values sum to 0, not 5,
so the sum-preservation claim fails as universally stated. -/
theorem C1_counterexample :
    ¬ sumValues (calculate_hourly_token_distribution 0 0 5) = 5 := by
  decide

/-- C1 (amended): for every window with `windowStart` strictly before
`windowEnd` and every `totalTokens`, the hourly distribution produced by
`calculate_hourly_token_distribution` has values summing to exactly
`totalTokens`, the truncation residual having been added to the hour of
largest weighted share. -/
theorem C1_sum_preservation {windowStart windowEnd : ℤ} (totalTokens : ℤ)
    (h : windowStart < windowEnd) :
    sumValues (calculate_hourly_token_distribution windowStart windowEnd totalTokens) =
      totalTokens :=
  sumValues_chd totalTokens h

/-- C1 witness: the amended theorem at the concrete window `[0, 5400]` with 10
tokens. -/
theorem C1_sum_preservation_witness :
    (0 : ℤ) < 5400 ∧
    sumValues (calculate_hourly_token_distribution 0 5400 10) = 10 :=
  ⟨by decide, C1_sum_preservation 10 (by decide)⟩

/-- C2: when `now` is strictly before the persisted window's rounded end, the
resolver returns that rounded end without writing, and a second call with the
identical inputs returns the identical output (and hence also performs no
write). -/
theorem C2_resolver_idempotent (now s : ℤ) (blocks : List Block) (st : StateRec)
    (hs : st.session_start_time = some s)
    (h : now < roundUpHour (s + 18000)) :
    get_session_based_reset_time now blocks (some st) =
      ⟨some (roundUpHour (s + 18000)), some st, false⟩ ∧
    get_session_based_reset_time now blocks
        (get_session_based_reset_time now blocks (some st)).state =
      get_session_based_reset_time now blocks (some st) := by
  have h1 : get_session_based_reset_time now blocks (some st) =
      ⟨some (roundUpHour (s + 18000)), some st, false⟩ := by
    rcases st with ⟨f⟩
    obtain rfl : f = some s := hs
    unfold get_session_based_reset_time
    dsimp only
    rw [if_pos h]
  refine ⟨h1, ?_⟩
  rw [h1]
  exact h1

/-- C2 witness: the theorem at state start 0 and `now = 0`. -/
theorem C2_resolver_idempotent_witness :
    ((⟨some 0⟩ : StateRec).session_start_time = some 0) ∧
    ((0 : ℤ) < roundUpHour (0 + 18000)) ∧
    (get_session_based_reset_time 0 [] (some ⟨some 0⟩) =
        ⟨some (roundUpHour (0 + 18000)), some ⟨some 0⟩, false⟩ ∧
      get_session_based_reset_time 0 []
          (get_session_based_reset_time 0 [] (some ⟨some 0⟩)).state =
        get_session_based_reset_time 0 [] (some ⟨some 0⟩)) :=
  ⟨rfl, by decide, C2_resolver_idempotent 0 0 [] ⟨some 0⟩ rfl (by decide)⟩

/-- C3: when `now` has reached the persisted window's rounded end, the
resolver inspects the latest-starting non-gap record: if its start is strictly
after the rounded end, that start is persisted (once — an immediately repeated
call writes nothing) and the returned reset time is `roundUpToHour(newStart +
5h)`; if no non-gap record starts after the rounded end, the resolver returns
no reset time and writes nothing. -/
theorem C3_rollover (now s : ℤ) (blocks : List Block) (st : StateRec)
    (hs : st.session_start_time = some s)
    (h : roundUpHour (s + 18000) ≤ now) :
    (∀ t, get_last_session_info blocks = some t → roundUpHour (s + 18000) < t →
      get_session_based_reset_time now blocks (some st) =
        ⟨some (roundUpHour (t + 18000)), some ⟨some t⟩, true⟩ ∧
      (get_session_based_reset_time now blocks (some ⟨some t⟩)).wrote = false) ∧
    ((∀ b ∈ blocks, b.isGap = false → ∀ u, b.startTime = some u →
        u ≤ roundUpHour (s + 18000)) →
      get_session_based_reset_time now blocks (some st) = ⟨none, some st, false⟩) := by
  rcases st with ⟨f⟩
  obtain rfl : f = some s := hs
  constructor
  · intro t hgls hlt
    constructor
    · unfold get_session_based_reset_time
      dsimp only
      rw [if_neg (not_lt.mpr h)]
      simp only [hgls]
      rw [if_pos hlt]
    · unfold get_session_based_reset_time
      dsimp only
      by_cases h2 : now < roundUpHour (t + 18000)
      · rw [if_pos h2]
      · rw [if_neg h2]
        simp only [hgls]
        rw [if_neg (not_lt.mpr (le_of_lt (lt_roundUpHour_add t)))]
  · intro hall
    unfold get_session_based_reset_time
    dsimp only
    rw [if_neg (not_lt.mpr h)]
    rcases hgls : get_last_session_info blocks with _ | t <;> simp only [hgls]
    obtain ⟨b, hb, hbg, hbs⟩ := gls_mem hgls
    rw [if_neg (not_lt.mpr (hall b hb hbg t hbs))]

/-- C3 witness: expired window with start 0, one record starting at 20000
(after the rounded end 18000). -/
theorem C3_rollover_witness :
    ((⟨some 0⟩ : StateRec).session_start_time = some 0) ∧
    (roundUpHour ((0 : ℤ) + 18000) ≤ 18000) ∧
    ((∀ t, get_last_session_info [⟨some 20000, none, 0, false, false⟩] = some t →
        roundUpHour ((0 : ℤ) + 18000) < t →
        get_session_based_reset_time 18000 [⟨some 20000, none, 0, false, false⟩]
            (some ⟨some 0⟩) =
          ⟨some (roundUpHour (t + 18000)), some ⟨some t⟩, true⟩ ∧
        (get_session_based_reset_time 18000 [⟨some 20000, none, 0, false, false⟩]
            (some ⟨some t⟩)).wrote = false) ∧
      ((∀ b ∈ [(⟨some 20000, none, 0, false, false⟩ : Block)], b.isGap = false →
          ∀ u, b.startTime = some u → u ≤ roundUpHour ((0 : ℤ) + 18000)) →
        get_session_based_reset_time 18000 [⟨some 20000, none, 0, false, false⟩]
            (some ⟨some 0⟩) = ⟨none, some ⟨some 0⟩, false⟩)) :=
  ⟨rfl, by decide,
    C3_rollover 18000 0 [⟨some 20000, none, 0, false, false⟩] ⟨some 0⟩ rfl (by decide)⟩

/-- C4 counterexample: `get_last_message_time` derives the window
`(37800, 55800)` from a persisted start of 37800 (10:30), whose end is the
unrounded start plus five hours and differs from
`roundUpToHour(start + 5h) = 57600`, so the rounding invariant does not hold
on every window-deriving code path. -/
theorem C4_counterexample :
    lastMessageWindow 38400 [] (some ⟨some 37800⟩) = some (37800, 55800) ∧
    (55800 : ℤ) ≠ roundUpHour (37800 + 18000) := by
  constructor
  · decide
  · decide

/-- C4 (amended): every reset time returned by `get_session_based_reset_time`
equals `roundUpToHour(start + 5h)` for the window start held in the state
after the call, with `start < end`; `get_last_message_time`, however, derives
its window end as the unrounded `start + 5h` (for which still
`start ≤ end`). -/
theorem C4_window_invariant :
    (∀ (now : ℤ) (blocks : List Block) (saved : Option StateRec) (r : ℤ),
      (get_session_based_reset_time now blocks saved).reset = some r →
      ∃ s, (get_session_based_reset_time now blocks saved).state = some ⟨some s⟩ ∧
        r = roundUpHour (s + 18000) ∧ s < r) ∧
    (∀ (now : ℤ) (blocks : List Block) (saved : Option StateRec) (ws we : ℤ),
      lastMessageWindow now blocks saved = some (ws, we) →
      we = ws + 18000 ∧ ws ≤ we) := by
  constructor
  · intro now blocks saved r h
    exact gsbrt_reset_inv now blocks saved h
  · intro now blocks saved ws we h
    have h1 := lmw_inv now blocks saved h
    exact ⟨h1, by omega⟩

/-- C4 witness: both parts at a state with start 0 and `now = 0`. -/
theorem C4_window_invariant_witness :
    (∃ s, (get_session_based_reset_time 0 [] (some ⟨some 0⟩)).state =
        some ⟨some s⟩ ∧ (18000 : ℤ) = roundUpHour (s + 18000) ∧ s < 18000) ∧
    ((18000 : ℤ) = 0 + 18000 ∧ (0 : ℤ) ≤ 18000) :=
  ⟨C4_window_invariant.1 0 [] (some ⟨some 0⟩) 18000 (by decide),
    C4_window_invariant.2 0 [] (some ⟨some 0⟩) 0 18000 (by decide)⟩

/-- C5: along any sequence of resolver ticks with non-decreasing `now`, the
persisted window starts are non-decreasing; moreover one call either leaves
the state unchanged or overwrites it with a start strictly after the previous
window's rounded end. -/
theorem C5_monotonicity (ticks : List (ℤ × List Block)) (st0 : Option StateRec)
    (hnow : List.Chain' (fun a b : ℤ × List Block => a.1 ≤ b.1) ticks) :
    List.Chain' (fun a b => ∀ s, stateStart a = some s →
        ∃ t, stateStart b = some t ∧ s ≤ t)
      (List.scanl resolveStep st0 ticks) ∧
    (∀ (now : ℤ) (blocks : List Block) (st : Option StateRec) (s : ℤ),
      stateStart st = some s →
      (get_session_based_reset_time now blocks st).state = st ∨
      ∃ t, (get_session_based_reset_time now blocks st).state = some ⟨some t⟩ ∧
        roundUpHour (s + 18000) < t) :=
  ⟨chain'_scanl _ resolveStep (fun b a => resolveStep_mono b a) ticks st0,
    fun now blocks st s h => gsbrt_state_mono now blocks st s h⟩

/-- C5 witness: the theorem at two concrete ticks with non-decreasing times. -/
theorem C5_monotonicity_witness :
    List.Chain' (fun a b => ∀ s, stateStart a = some s →
        ∃ t, stateStart b = some t ∧ s ≤ t)
      (List.scanl resolveStep (some ⟨some 0⟩) [(0, []), (20000, [])]) ∧
    (∀ (now : ℤ) (blocks : List Block) (st : Option StateRec) (s : ℤ),
      stateStart st = some s →
      (get_session_based_reset_time now blocks st).state = st ∨
      ∃ t, (get_session_based_reset_time now blocks st).state = some ⟨some t⟩ ∧
        roundUpHour (s + 18000) < t) :=
  C5_monotonicity [(0, []), (20000, [])] (some ⟨some 0⟩)
    (by norm_num [List.chain'_cons, List.chain'_singleton])

/-- C6: with non-negative token counts, `calculate_hourly_burn_rate` computes
exactly the spec's formula — discard non-gap records whose effective end
precedes `now - 1h`, give each surviving record of positive duration a
proportional share `totalTokens * overlap / duration`, sum and divide by 60;
the result is 0 when no record qualifies or the total is zero. -/
theorem C6_burn_rate (blocks : List Block) (current_time : ℤ)
    (hT : ∀ b ∈ blocks, 0 ≤ b.totalTokens) :
    calculate_hourly_burn_rate blocks current_time =
      specHourlyRate current_time blocks :=
  chbr_eq_spec current_time hT

/-- C6 witness: the theorem on a concrete record fully inside the trailing
hour. -/
theorem C6_burn_rate_witness :
    (∀ b ∈ [(⟨some 3600, some 7200, 120, false, false⟩ : Block)], 0 ≤ b.totalTokens) ∧
    calculate_hourly_burn_rate [⟨some 3600, some 7200, 120, false, false⟩] 7200 =
      specHourlyRate 7200 [⟨some 3600, some 7200, 120, false, false⟩] :=
  ⟨by decide, C6_burn_rate [⟨some 3600, some 7200, 120, false, false⟩] 7200 (by decide)⟩

/-- C7 counterexample: for a window starting mid-hour at 1800 (00:30), the
distribution `[(0, 100)]` and `asOf = 5400` (01:30, inside the window), the
code yields 50 while the claim's formula yields 100: the clock hour `[0,
3600)` ends before `asOf` yet its allocation is prorated by the session
overlap instead of counted in full. -/
theorem C7_counterexample :
    calculate_dynamic_session_tokens 5400 1800 [(0, 100)] ≠
      specDynamicTokens 5400 1800 [(0, 100)] := by
  have h1 : hoursFrom 1800 5400 = [0, 3600] := by decide
  have h2 : floorHour 5400 = 3600 := by decide
  have h3 : lookupD [(0, 100)] 0 = 100 := by decide
  have h4 : lookupD [(0, 100)] 3600 = 0 := by decide
  unfold calculate_dynamic_session_tokens specDynamicTokens
  rw [h1, h2]
  simp only [List.map_cons, List.map_nil, List.sum_cons, List.sum_nil, h3, h4]
  norm_num [pyInt, max_def, min_def]

/-- C7 (amended): when the window start lies exactly on an hour boundary,
`calculate_dynamic_session_tokens` equals the claim's formula — the sum of the
full allocations of the hours ending at or before `asOf` plus the truncated
linearly prorated fraction of the allocation of the hour containing `asOf`;
for a mid-hour window start the code additionally prorates the first hour by
its overlap with the window. -/
theorem C7_partial_total (dist : List (ℤ × ℤ)) (windowStart asOf : ℤ)
    (ha : windowStart % 3600 = 0) (hle : windowStart ≤ asOf) :
    calculate_dynamic_session_tokens asOf windowStart dist =
      specDynamicTokens asOf windowStart dist :=
  cds_eq_spec dist ha hle

/-- C7 witness: the amended theorem for an hour-aligned window start. -/
theorem C7_partial_total_witness :
    ((0 : ℤ) % 3600 = 0) ∧ ((0 : ℤ) ≤ 5400) ∧
    calculate_dynamic_session_tokens 5400 0 [(0, 100), (3600, 50)] =
      specDynamicTokens 5400 0 [(0, 100), (3600, 50)] :=
  ⟨by decide, by decide,
    C7_partial_total [(0, 100), (3600, 50)] 0 5400 (by decide) (by decide)⟩

/-- C8 counterexample: a state file that parses but lacks the required
`session_start_time` field is returned as the parsed record, not as `None`,
contradicting the claim that every corrupt content yields `None`. -/
theorem C8_counterexample :
    load_session_state (FileContent.record none) ≠ none := by
  decide

/-- C8 (amended): a missing file, malformed encoding or unparsable timestamp
makes `load_session_state` return `None`; a record missing the required field
is returned as is; and in that case the resolver still returns the same reset
time, performs a write in exactly the same cases, and writes the same state,
as when no persisted state exists at all. -/
theorem C8_corrupt_state (now : ℤ) (blocks : List Block) :
    load_session_state .absent = none ∧
    load_session_state .malformed = none ∧
    load_session_state (.record (some .invalid)) = none ∧
    load_session_state (.record none) = some ⟨none⟩ ∧
    ((get_session_based_reset_time now blocks
        (load_session_state (.record none))).reset =
      (get_session_based_reset_time now blocks none).reset ∧
     (get_session_based_reset_time now blocks
        (load_session_state (.record none))).wrote =
      (get_session_based_reset_time now blocks none).wrote ∧
     ((get_session_based_reset_time now blocks
          (load_session_state (.record none))).wrote = true →
       (get_session_based_reset_time now blocks
          (load_session_state (.record none))).state =
        (get_session_based_reset_time now blocks none).state)) :=
  ⟨rfl, rfl, rfl, rfl, gsbrt_fresh_equiv now blocks (some ⟨none⟩) none⟩

/-- C9 counterexample: `save_session_state` violates the claimed
temporary-file-and-rename discipline (it writes the state file directly), and
a crash right after its truncating open destroys a previously valid state:
the next read returns `None` instead of the old window start. -/
theorem C9_counterexample :
    ¬ atomicSaveDiscipline (save_session_state_ops 0) ∧
    load_session_state
      (runOps (fun _ => FileContent.record (some (.valid 0)))
        ((save_session_state_ops 5).take 1) stateFilePath) = none ∧
    load_session_state
      ((fun _ => FileContent.record (some (.valid 0))) stateFilePath) =
      some ⟨some 0⟩ := by
  refine ⟨fun h => ?_, by decide, rfl⟩
  exact h.2.1 stateFilePath 0 (by simp [save_session_state_ops]) rfl

/-- C9 (amended): the save is an in-place truncating write with no rename: a
completed save installs the new window start, but an interrupted save (crash
after the truncating open) leaves content that the next load discards as
corrupt, losing the previous state instead of preserving it. -/
theorem C9_save_not_atomic :
    (∀ (t : ℤ) (src dst : String), FsOp.renameF src dst ∉ save_session_state_ops t) ∧
    (∀ (fs : FileSys) (t : ℤ),
      load_session_state (runOps fs (save_session_state_ops t) stateFilePath) =
        some ⟨some t⟩) ∧
    (∀ (fs : FileSys) (t : ℤ),
      load_session_state
        (runOps fs ((save_session_state_ops t).take 1) stateFilePath) = none) := by
  refine ⟨?_, ?_, ?_⟩
  · intro t src dst hmem
    simp [save_session_state_ops] at hmem
  · intro fs t
    simp [save_session_state_ops, runOps, applyOp, load_session_state]
  · intro fs t
    simp [save_session_state_ops, runOps, applyOp, load_session_state]

/-- C10: for a window with start strictly before end and non-negative total,
every hourly allocation of the produced distribution is non-negative, and
`calculate_dynamic_session_tokens` on that distribution stays between 0 and
`totalTokens` for every target time. -/
theorem C10_bounds (windowStart windowEnd totalTokens : ℤ)
    (h : windowStart < windowEnd) (hT : 0 ≤ totalTokens) :
    (∀ p ∈ calculate_hourly_token_distribution windowStart windowEnd totalTokens,
      0 ≤ p.2) ∧
    ∀ target,
      0 ≤ calculate_dynamic_session_tokens target windowStart
        (calculate_hourly_token_distribution windowStart windowEnd totalTokens) ∧
      calculate_dynamic_session_tokens target windowStart
        (calculate_hourly_token_distribution windowStart windowEnd totalTokens) ≤
        totalTokens := by
  refine ⟨chd_values_nonneg h hT, fun target => ?_⟩
  have hb := cds_bounds (chd_keys_nodup windowStart windowEnd totalTokens)
    (chd_values_nonneg h hT) target windowStart
  rw [sumValues_chd totalTokens h] at hb
  exact hb

/-- C10 witness: the theorem at the concrete window `[0, 5400]` with 10
tokens. -/
theorem C10_bounds_witness :
    ((0 : ℤ) < 5400) ∧ ((0 : ℤ) ≤ 10) ∧
    ((∀ p ∈ calculate_hourly_token_distribution 0 5400 10, 0 ≤ p.2) ∧
      ∀ target,
        0 ≤ calculate_dynamic_session_tokens target 0
          (calculate_hourly_token_distribution 0 5400 10) ∧
        calculate_dynamic_session_tokens target 0
          (calculate_hourly_token_distribution 0 5400 10) ≤ 10) :=
  ⟨by decide, by decide, C10_bounds 0 5400 10 (by decide) (by decide)⟩

end CCM
